import Mathlib

/-!
Verification of the statistical core of the llmRandomnessAnalysis backend.

The Python modules under backend/stats are shallowly embedded here:
numeric arrays become lists of rationals (floats are modelled exactly by ℚ),
real-valued outputs that involve square roots, normal CDFs or Fourier
transforms live in ℝ, and functions that can raise return Except String.
Each embedded definition mirrors one Python function and keeps its name.
-/

namespace Stats

/-- MAX_CHART_POINTS from backend/stats/utils.py. -/
def MAX_CHART_POINTS : ℕ := 5000

/-- The index list np.linspace(0, n-1, mp, dtype=int): entry i is the floor of
i*(n-1)/(mp-1); natural division is exactly this floor.  numpy computes the
spacing in floating point before truncating, which can differ from the exact
floor by one index in rare cases, but it always starts at 0, stays within
range, is nondecreasing, and ends exactly at n-1 (linspace sets the endpoint
explicitly), which is all the downsampling contract uses. -/
def linIdx (n mp : ℕ) : List ℕ :=
  (List.range mp).map (fun i => i * (n - 1) / (mp - 1))

/-- np.unique applied to an already nondecreasing integer list sorts and removes
duplicates; on sorted input this is exactly the collapse of equal neighbours. -/
def dedupAdj : List ℕ → List ℕ
  | [] => []
  | [a] => [a]
  | a :: b :: t => if a = b then dedupAdj (b :: t) else a :: dedupAdj (b :: t)

/-- Fancy indexing arr[indices]: every index is looked up with a default that is
never used because all produced indices are in range. -/
def select (idx : List ℕ) (xs : List α) (d : α) : List α :=
  idx.map (fun i => xs.getD i d)

/-- The index set used by downsample and downsample_single in utils.py:
linspace indices, deduplicated, with n-1 appended when it is not already last. -/
def dsIdx (n mp : ℕ) : List ℕ :=
  let u := dedupAdj (linIdx n mp)
  if u.getLast? = some (n - 1) then u else u ++ [n - 1]

/-- downsample_single from backend/stats/utils.py. -/
def downsample_single (xs : List ℚ) (mp : ℕ) : List ℚ :=
  if xs.length ≤ mp then xs else select (dsIdx xs.length mp) xs 0

/-- downsample from backend/stats/utils.py: both arrays are restricted to the
index set computed from the length of the first array. -/
def downsample (x y : List ℚ) (mp : ℕ) : List ℚ × List ℚ :=
  if x.length ≤ mp then (x, y)
  else (select (dsIdx x.length mp) x 0, select (dsIdx x.length mp) y 0)

/-- np.mean of a list of rationals.  The empty list gives 0/0 = 0 here; numpy
yields NaN, and every use below is guarded so the empty case is unreachable. -/
def meanQ (xs : List ℚ) : ℚ := xs.sum / xs.length

/-- Sum of squared deviations from the mean, the common core of np.var/np.std. -/
def sqDevSum (xs : List ℚ) : ℚ := (xs.map (fun x => (x - meanQ xs) ^ 2)).sum

/-- np.var with the default ddof=0 (population variance). -/
def popVarQ (xs : List ℚ) : ℚ := sqDevSum xs / xs.length

/-- np.var with ddof=1 (sample variance, denominator n-1). -/
def sampleVarQ (xs : List ℚ) : ℚ := sqDevSum xs / ((xs.length : ℚ) - 1)

/-- np.std with the default ddof=0. -/
noncomputable def npStd (xs : List ℚ) : ℝ := Real.sqrt (popVarQ xs)

/-- np.std with ddof=1. -/
noncomputable def npStdSample (xs : List ℚ) : ℝ := Real.sqrt (sampleVarQ xs)

/-- np.min of a nonempty array (0 for the empty array, which numpy rejects). -/
def listMin : List ℚ → ℚ
  | [] => 0
  | x :: xs => xs.foldl min x

/-- np.max of a nonempty array (0 for the empty array, which numpy rejects). -/
def listMax : List ℚ → ℚ
  | [] => 0
  | x :: xs => xs.foldl max x

/-- np.sort: the sorted permutation of the list. -/
def sortQ (xs : List ℚ) : List ℚ := List.insertionSort (fun a b => a ≤ b) xs

/-- The fields of the basic_stats dict in backend/stats/basic_stats.py that the
verified claims refer to.  The median/mode/quantile/skewness/kurtosis fields
are not embedded; no claim mentions them. -/
structure BasicStats where
  mean : ℚ
  std : ℝ
  variance : ℚ
  min : ℚ
  max : ℚ

/-- basic_stats from backend/stats/basic_stats.py: sample std and variance
(ddof=1) with the len > 1 guard returning exactly 0 for single elements. -/
noncomputable def basic_stats (arr : List ℚ) : BasicStats :=
  { mean := meanQ arr
    std := if 1 < arr.length then npStdSample arr else 0
    variance := if 1 < arr.length then sampleVarQ arr else 0
    min := listMin arr
    max := listMax arr }

/-- np.linspace(a, b, num) over exact rationals: num=0 gives [], num=1 gives
[a], otherwise entry i is a + i*(b-a)/(num-1) with the endpoint hit exactly. -/
def linspaceQ (a b : ℚ) (num : ℕ) : List ℚ :=
  match num with
  | 0 => []
  | 1 => [a]
  | _ => (List.range num).map (fun (i : ℕ) => a + (i : ℚ) * (b - a) / ((num : ℚ) - 1))

/-- scipy.stats.uniform.ppf(p, loc, scale) = loc + p*scale. -/
def uniform_ppf (loc scale p : ℚ) : ℚ := loc + p * scale

/-- The theoretical quantiles of the qq_plot block in distribution_analysis:
uniform quantiles over [min, max] at np.linspace(0.01, 0.99, len(arr))
probability points — the number of points is the sequence length. -/
def qq_theoretical (arr : List ℚ) : List ℚ :=
  (linspaceQ (1 / 100) (99 / 100) arr.length).map
    (uniform_ppf (listMin arr) (listMax arr - listMin arr))

/-- The qq_plot block of distribution_analysis: sorted sample and theoretical
quantiles, downsampled together to MAX_CHART_POINTS. -/
def qq_plot (arr : List ℚ) : List ℚ × List ℚ :=
  downsample (sortQ arr) (qq_theoretical arr) MAX_CHART_POINTS

/-- The part of the distribution_analysis return value referenced by claims. -/
structure DistributionResult where
  qqSample : List ℚ
  qqTheoretical : List ℚ

/-- distribution_analysis from backend/stats/distribution.py, as far as the
claims reach.  The kstest/histogram/kde numeric payloads are not embedded.
The Except channel models the scipy call stats.gaussian_kde(arr), which is
executed before the qq block is built and which raises (ValueError) when the
dataset has fewer than two points and raises (numpy LinAlgError, singular data
covariance) when the data has zero variance; no other statement in the
function raises on nonempty finite input. -/
def distribution_analysis (arr : List ℚ) : Except String DistributionResult :=
  if arr.length < 2 then
    .error "gaussian_kde: dataset should have multiple elements"
  else if listMax arr ≤ listMin arr then
    .error "gaussian_kde: singular data covariance matrix"
  else
    .ok { qqSample := (qq_plot arr).1, qqTheoretical := (qq_plot arr).2 }

/-- normalize_to_unit from backend/stats/distribution.py. -/
def normalize_to_unit (arr : List ℚ) : List ℚ :=
  if arr.length = 0 then arr
  else if listMax arr ≤ listMin arr then arr.map (fun _ => 1 / 2)
  else arr.map (fun x => (x - listMin arr) / (listMax arr - listMin arr))

/-- ecdf_ks_statistic_normalized: max over sorted points of the deviation of
the empirical step CDF from the identity, checked at and just before each
jump.  The NaN guard for empty input is unreachable through
compute_distribution_deviation_metrics and is modelled as 0. -/
def ecdf_ks_statistic_normalized (u : List ℚ) : ℚ :=
  let s := sortQ u
  let n := u.length
  listMax ((List.range n).map (fun (i : ℕ) =>
    max |((i : ℚ) + 1) / n - s.getD i 0| |((i : ℚ)) / n - s.getD i 0|))

/-- ecdf_mad_normalized: mean absolute deviation of the empirical CDF from the
identity at the sorted points (same unreachable-NaN note as above). -/
def ecdf_mad_normalized (u : List ℚ) : ℚ :=
  let s := sortQ u
  let n := u.length
  meanQ ((List.range n).map (fun (i : ℕ) => |((i : ℚ) + 1) / n - s.getD i 0|))

/-- ecdf_regional_deviation with regions=5: mean absolute deviation within each
fifth of [0,1]; the last region is closed on the right, empty regions give 0. -/
def ecdf_regional_deviation (u : List ℚ) : List ℚ :=
  let s := sortQ u
  let n := u.length
  let devs := (List.range n).map (fun (i : ℕ) => (s.getD i 0, |((i : ℚ) + 1) / n - s.getD i 0|))
  (List.range 5).map (fun (r : ℕ) =>
    let low : ℚ := (r : ℚ) / 5
    let high : ℚ := ((r : ℚ) + 1) / 5
    let sel := devs.filter (fun p =>
      if r = 4 then low ≤ p.1 ∧ p.1 ≤ high else low ≤ p.1 ∧ p.1 < high)
    if sel.length = 0 then 0 else meanQ (sel.map (fun p => p.2)))

/-- The Blom plotting positions (i - 0.5)/n used by the Q-Q deviation metrics. -/
def blomQuantiles (n : ℕ) : List ℚ :=
  (List.range n).map (fun i => ((i : ℚ) + 1 - 1 / 2) / n)

/-- qq_r_squared_normalized: 1 - SS_res/SS_tot over Blom quantiles; returns
NaN (modelled as none) for fewer than 2 points or nonpositive SS_tot. -/
def qq_r_squared_normalized (u : List ℚ) : Option ℚ :=
  if u.length < 2 then none
  else
    let s := sortQ u
    let ssRes := (List.zipWith (fun a b => (a - b) ^ 2) s (blomQuantiles u.length)).sum
    let ssTot := sqDevSum s
    if ssTot ≤ 0 then none else some (1 - ssRes / ssTot)

/-- qq_mse_normalized: mean squared deviation of the sorted values from the
Blom quantiles (empty-input NaN unreachable, modelled as 0). -/
def qq_mse_normalized (u : List ℚ) : ℚ :=
  meanQ (List.zipWith (fun a b => (a - b) ^ 2) (sortQ u) (blomQuantiles u.length))

/-- safe_cv from compute_distribution_deviation_metrics: population std over
mean, 0 when the mean is 0; the isnan guard fires exactly for empty input
(np.mean of an empty array is NaN), modelled by the length test. -/
noncomputable def safe_cv (xs : List ℚ) : ℝ :=
  if xs.length = 0 ∨ meanQ xs = 0 then 0 else npStd xs / (meanQ xs : ℝ)

/-- Aggregate record with mean, std_dev and cv, as built for ks_statistic and
mad inside compute_distribution_deviation_metrics. -/
structure AggCV where
  mean : ℚ
  std_dev : ℝ
  cv : ℝ

/-- Aggregate record with only mean and std_dev (r_squared, mse_from_diagonal
carry no cv field in the source). -/
structure AggMS where
  mean : ℚ
  std_dev : ℝ

/-- Aggregate record for r_squared: NaN entries (none) contaminate np.mean and
np.std, so the aggregates are optional. -/
structure AggOpt where
  mean : Option ℚ
  std_dev : Option ℝ

/-- The return shape of compute_distribution_deviation_metrics. -/
structure DeviationMetrics where
  ks_statistic : AggCV
  mad : AggCV
  regional_mean : List ℚ
  r_squared : AggOpt
  mse_from_diagonal : AggMS

/-- empty_deviation_metrics from backend/stats/distribution.py (all zeros). -/
def empty_deviation_metrics : DeviationMetrics :=
  { ks_statistic := { mean := 0, std_dev := 0, cv := 0 }
    mad := { mean := 0, std_dev := 0, cv := 0 }
    regional_mean := [0, 0, 0, 0, 0]
    r_squared := { mean := some 0, std_dev := some 0 }
    mse_from_diagonal := { mean := 0, std_dev := 0 } }

/-- compute_distribution_deviation_metrics from backend/stats/distribution.py.
Runs are lists of finite rationals, so the np.isnan/np.isinf skip is vacuous
here and a run qualifies exactly when it has at least 2 points (the len < 2
check subsumes the len == 0 check).  NaN produced downstream by
qq_r_squared_normalized on a constant run is modelled by Option. -/
noncomputable def compute_distribution_deviation_metrics
    (runs : List (List ℚ)) : DeviationMetrics :=
  let qual := runs.filter (fun r => 2 ≤ r.length)
  let ks_list := qual.map (fun r => ecdf_ks_statistic_normalized (normalize_to_unit r))
  let mad_list := qual.map (fun r => ecdf_mad_normalized (normalize_to_unit r))
  let regional_list := qual.map (fun r => ecdf_regional_deviation (normalize_to_unit r))
  let r2_list := qual.map (fun r => qq_r_squared_normalized (normalize_to_unit r))
  let mse_list := qual.map (fun r => qq_mse_normalized (normalize_to_unit r))
  if ks_list.length = 0 then empty_deviation_metrics
  else
    { ks_statistic :=
        { mean := meanQ ks_list
          std_dev := if 1 < ks_list.length then npStd ks_list else 0
          cv := safe_cv ks_list }
      mad :=
        { mean := meanQ mad_list
          std_dev := if 1 < mad_list.length then npStd mad_list else 0
          cv := safe_cv mad_list }
      regional_mean :=
        (List.range 5).map (fun i => meanQ (regional_list.map (fun v => v.getD i 0)))
      r_squared :=
        { mean := if r2_list.any (fun o => o.isNone) then none
                  else some (meanQ (r2_list.map (fun o => o.getD 0)))
          std_dev := if 1 < r2_list.length then
                       (if r2_list.any (fun o => o.isNone) then none
                        else some (npStd (r2_list.map (fun o => o.getD 0))))
                     else some 0 }
      mse_from_diagonal :=
        { mean := meanQ mse_list
          std_dev := if 1 < mse_list.length then npStd mse_list else 0 } }

/-- The {mean, std_dev, range} record built by calc_metric_stats inside
analyze_multi_run. -/
structure MetricStats where
  mean : ℚ
  std_dev : ℝ
  range : ℚ

/-- calc_metric_stats from backend/stats/analyzer.py: np.std with default
ddof=0 when more than one run, else 0. -/
noncomputable def calc_metric_stats (metric : List ℚ) : MetricStats :=
  if metric.length = 0 then { mean := 0, std_dev := 0, range := 0 }
  else
    { mean := meanQ metric
      std_dev := if 1 < metric.length then npStd metric else 0
      range := listMax metric - listMin metric }

/-- Sample standard deviation as the specification words it: square root of the
sum of squared deviations over n - 1. -/
noncomputable def sampleStdSpec (xs : List ℚ) : ℝ :=
  Real.sqrt (sqDevSum xs / ((xs.length : ℚ) - 1))

/-- Population variance in moment form E[X^2] - E[X]^2, used as an independent
reference formulation. -/
def popVarMoment (xs : List ℚ) : ℚ :=
  (xs.map (fun x => x ^ 2)).sum / xs.length - (meanQ xs) ^ 2

/-- Population standard deviation from the moment form. -/
noncomputable def popStdMoment (xs : List ℚ) : ℝ := Real.sqrt (popVarMoment xs)

/-- Cut a list into consecutive pieces of the given sizes. -/
def splitBySizes : List ℚ → List ℕ → List (List ℚ)
  | _, [] => []
  | xs, s :: ss => xs.take s :: splitBySizes (xs.drop s) ss

/-- The chunk sizes np.array_split(arr, k) produces: the first n % k chunks get
n / k + 1 elements, the remaining ones n / k. -/
def npArraySplitSizes (n k : ℕ) : List ℕ :=
  (List.range k).map (fun i => n / k + if i < n % k then 1 else 0)

/-- np.array_split(arr, k). -/
def np_array_split (arr : List ℚ) (k : ℕ) : List (List ℚ) :=
  splitBySizes arr (npArraySplitSizes arr.length k)

/-- One chunk record of stationarity_analysis. -/
structure ChunkStats where
  chunk : ℕ
  mean : ℚ
  std : ℝ
  min : ℚ
  max : ℚ

/-- The chunks field of stationarity_analysis in backend/stats/stationarity.py:
np.array_split into 4, empty chunks skipped, chunk numbers from the original
enumeration, sample std (ddof=1) with the single-element guard.  The rolling
mean/std fields are not embedded; no claim mentions them. -/
noncomputable def stationarity_chunks (arr : List ℚ) : List ChunkStats :=
  ((np_array_split arr 4).enum).filterMap (fun p =>
    if p.2.length = 0 then none
    else some
      { chunk := p.1 + 1
        mean := meanQ p.2
        std := if 1 < p.2.length then npStdSample p.2 else 0
        min := listMin p.2
        max := listMax p.2 })

/-- The chunking the specification text describes: 4 contiguous chunks of
near-equal size with the LAST chunk absorbing the remainder. -/
def chunksSpecLastAbsorbs (arr : List ℚ) : List (List ℚ) :=
  splitBySizes arr
    [arr.length / 4, arr.length / 4, arr.length / 4,
     arr.length - 3 * (arr.length / 4)]

/-- The theoretical quantiles the specification text claims for qq_plot: 99
evenly spaced probability points between 0.01 and 0.99 over [min, max],
independent of the sequence length. -/
def qqTheoreticalSpec99 (arr : List ℚ) : List ℚ :=
  (linspaceQ (1 / 100) (99 / 100) 99).map
    (uniform_ppf (listMin arr) (listMax arr - listMin arr))

/-- The result record of the NIST runs test; on precondition failure only
passed=false and the error string are populated. -/
structure RunsTestResult where
  p_value : Option ℝ
  statistic : Option ℝ
  runs : Option ℕ
  expected_runs : Option ℚ
  ones : Option ℕ
  zeros : Option ℕ
  passed : Bool
  error : Option String

/-- The failure shape {p_value: None, statistic: None, passed: False, error}. -/
def runsTestError (msg : String) : RunsTestResult :=
  { p_value := none, statistic := none, runs := none, expected_runs := none
    ones := none, zeros := none, passed := false, error := some msg }

/-- Number of positions where a bit differs from its predecessor; the runs
count of the source is 1 + this. -/
def adjChanges : List Bool → ℕ
  | a :: b :: t => (if a ≠ b then 1 else 0) + adjChanges (b :: t)
  | _ => 0

/-- Standard normal CDF (stats.norm.cdf). -/
noncomputable def normCdf (x : ℝ) : ℝ :=
  ∫ t in Set.Iic x, Real.exp (-(t ^ 2) / 2) / Real.sqrt (2 * Real.pi)

/-- ones = sum of the bit sequence (count of 1 bits). -/
def onesCount (bits : List Bool) : ℕ := (bits.filter (fun b => b)).length

/-- The variance formula of the runs test:
2*ones*zeros*(2*ones*zeros - n) / (n^2 (n-1)). -/
def runsVarianceQ (bits : List Bool) : ℚ :=
  let n := bits.length
  let ones := onesCount bits
  let zeros := n - ones
  (2 * ones * zeros * (2 * (ones : ℚ) * zeros - n)) / ((n : ℚ) * n * (n - 1))

/-- The expected runs count 2*ones*zeros/n + 1. -/
def runsExpectedQ (bits : List Bool) : ℚ :=
  2 * (onesCount bits : ℚ) * (bits.length - onesCount bits : ℕ) / bits.length + 1

/-- The z statistic of the runs test. -/
noncomputable def runsZStat (bits : List Bool) : ℝ :=
  ((1 + adjChanges bits : ℕ) - ((runsExpectedQ bits : ℚ) : ℝ)) /
    Real.sqrt ((runsVarianceQ bits : ℚ) : ℝ)

/-- The two-sided normal p-value of the runs test. -/
noncomputable def runsPValue (bits : List Bool) : ℝ :=
  2 * (1 - normCdf |runsZStat bits|)

open scoped Classical

/-- runs_test from backend/stats/nist_tests.py.  Bits are 0/1 integers in the
source, modelled as Bool; ones = sum of the bits = count of true. -/
noncomputable def runs_test (bits : List Bool) : RunsTestResult :=
  let n := bits.length
  if n < 2 then runsTestError "Sequence too short"
  else
    let ones := onesCount bits
    let zeros := n - ones
    if ones = 0 ∨ zeros = 0 then
      runsTestError "Sequence contains only one type of bit"
    else if runsVarianceQ bits ≤ 0 then runsTestError "Invalid variance"
    else
      { p_value := some (runsPValue bits)
        statistic := some (runsZStat bits)
        runs := some (1 + adjChanges bits)
        expected_runs := some (runsExpectedQ bits)
        ones := some ones
        zeros := some zeros
        passed := if 1 / 100 < runsPValue bits then true else false
        error := none }

/-- A Python value inside a submitted run: a finite number, a float NaN, a
float infinity (all three satisfy isinstance(x, (int, float))), or a
non-numeric object. -/
inductive PyVal where
  | num (q : ℚ)
  | nanVal
  | infVal
  | other
deriving DecidableEq

/-- isinstance(x, (int, float)): NaN and infinities are floats and pass. -/
def isNumericEntry : PyVal → Bool
  | .other => false
  | _ => true

/-- np.any(np.isnan(arr)) or np.any(np.isinf(arr)) over one run. -/
def run_has_nan_inf (r : List PyVal) : Bool :=
  r.any (fun v =>
    match v with
    | .nanVal => true
    | .infVal => true
    | _ => false)

/-- The per-run validation loop of analyze_multi_run (lines 48-52): the first
offending run wins, emptiness is checked before entry types, indices are
reported 1-based. -/
def validate_runs : List (List PyVal) → ℕ → Option String
  | [], _ => none
  | r :: rest, idx =>
    if r.length = 0 then some ("Run " ++ toString (idx + 1) ++ " is empty")
    else if r.all isNumericEntry then validate_runs rest (idx + 1)
    else some ("Run " ++ toString (idx + 1) ++ " contains non-numeric values")

/-- The fields of the analyze_multi_run result that the claims about
validation and count_per_run refer to. -/
structure MultiRunSkeleton where
  count_per_run : ℕ
  valid_runs : List (List PyVal)

/-- The control-flow skeleton of analyze_multi_run in
backend/stats/analyzer.py: the no-runs check, the per-run validation loop, the
NaN/Inf filter, the no-valid-runs check, and the count_per_run field
(= len(runs[0]) of the ORIGINAL runs list).  The statistical payload of the
result dict is embedded separately per analysis block. -/
def analyze_multi_run_validate
    (runs : List (List PyVal)) : Except String MultiRunSkeleton :=
  if runs.length = 0 then .error "No runs provided"
  else
    match validate_runs runs 0 with
    | some msg => .error msg
    | none =>
      let valid := runs.filter (fun r => !run_has_nan_inf r)
      if valid.length = 0 then .error "No valid runs to analyze"
      else .ok { count_per_run := (runs.headD []).length, valid_runs := valid }

/-- np.fft.fftfreq(n)[k]: k/n on the nonnegative half, (k-n)/n on the negative
half. -/
def fftfreqQ (n k : ℕ) : ℚ :=
  if k ≤ (n - 1) / 2 then (k : ℚ) / n else ((k : ℚ) - n) / n

/-- The index positions with strictly positive frequency (freqs > 0 mask). -/
def posFreqIdx (n : ℕ) : List ℕ :=
  (List.range n).filter (fun k => 0 < fftfreqQ n k)

/-- The sequence minus its mean, as reals. -/
noncomputable def centeredR (arr : List ℚ) : List ℝ :=
  arr.map (fun x => (x : ℝ) - ((meanQ arr : ℚ) : ℝ))

/-- The k-th discrete Fourier transform coefficient of a real list, as scipy
fft computes it. -/
noncomputable def dftAt (xs : List ℝ) (k : ℕ) : ℂ :=
  ∑ j ∈ Finset.range xs.length,
    ((xs.getD j 0 : ℝ) : ℂ) *
      Complex.exp (-(2 * Real.pi * Complex.I * (j : ℂ) * (k : ℂ)) / (xs.length : ℂ))

/-- Positive-frequency bins of spectral_analysis. -/
def spectral_freqAll (arr : List ℚ) : List ℚ :=
  (posFreqIdx arr.length).map (fftfreqQ arr.length)

/-- abs of the FFT of the mean-centered sequence at the positive bins. -/
noncomputable def spectral_magAll (arr : List ℚ) : List ℝ :=
  (posFreqIdx arr.length).map (fun k => Complex.abs (dftAt (centeredR arr) k))

/-- power = magnitude ** 2 elementwise, before downsampling. -/
noncomputable def spectral_powerAll (arr : List ℚ) : List ℝ :=
  (spectral_magAll arr).map (fun m => m ^ 2)

/-- The index subset spectral_analysis uses when there are more positive bins
than MAX_CHART_POINTS: linspace indices deduplicated, no forced final index. -/
def specSelIdx (len : ℕ) : List ℕ :=
  dedupAdj (linIdx len (min len MAX_CHART_POINTS))

/-- The return value of spectral_analysis. -/
structure SpectralResult where
  frequencies : List ℚ
  magnitude : List ℝ
  power : List ℝ

/-- spectral_analysis from backend/stats/spectral.py: positive bins only, one
shared index subset for frequencies, magnitude and power. -/
noncomputable def spectral_analysis (arr : List ℚ) : SpectralResult :=
  let L := (spectral_freqAll arr).length
  if min L MAX_CHART_POINTS < L then
    { frequencies := select (specSelIdx L) (spectral_freqAll arr) 0
      magnitude := select (specSelIdx L) (spectral_magAll arr) 0
      power := select (specSelIdx L) (spectral_powerAll arr) 0 }
  else
    { frequencies := spectral_freqAll arr
      magnitude := spectral_magAll arr
      power := spectral_powerAll arr }

/-- The concrete two-run batch used by the count_per_run witness: the runs
have lengths 3 and 2. -/
def witnessRunsC10 : List (List PyVal) :=
  [[PyVal.num 1, PyVal.num 2, PyVal.num 3], [PyVal.num 4, PyVal.num 5]]

/-- The result skeleton of the count_per_run witness batch. -/
def witnessResC10 : MultiRunSkeleton :=
  { count_per_run := 3, valid_runs := witnessRunsC10 }

lemma dedupAdj_head? : ∀ l : List ℕ, (dedupAdj l).head? = l.head? := by
  intro l
  induction l with
  | nil => rfl
  | cons a t ih =>
    cases t with
    | nil => rfl
    | cons b t' =>
      by_cases hab : a = b
      · simp only [dedupAdj, if_pos hab]
        rw [ih]
        simp [hab]
      · simp [dedupAdj, if_neg hab]

lemma dedupAdj_ne_nil : ∀ {l : List ℕ}, l ≠ [] → dedupAdj l ≠ [] := by
  intro l hl
  have h := dedupAdj_head? l
  intro hcon
  rw [hcon] at h
  rcases l with _ | ⟨a, t⟩
  · exact hl rfl
  · simp at h

lemma dedupAdj_getLast? : ∀ l : List ℕ, (dedupAdj l).getLast? = l.getLast? := by
  intro l
  induction l with
  | nil => rfl
  | cons a t ih =>
    cases t with
    | nil => rfl
    | cons b t' =>
      rw [List.getLast?_cons_cons]
      by_cases hab : a = b
      · rw [dedupAdj, if_pos hab, ih]
      · rw [dedupAdj, if_neg hab]
        rw [← ih]
        have hne : dedupAdj (b :: t') ≠ [] := dedupAdj_ne_nil (by simp)
        rcases h : dedupAdj (b :: t') with _ | ⟨d, u⟩
        · exact absurd h hne
        · simp

lemma dedupAdj_mem : ∀ {l : List ℕ} {x : ℕ}, x ∈ dedupAdj l → x ∈ l := by
  intro l
  induction l with
  | nil => intro x h; simp [dedupAdj] at h
  | cons a t ih =>
    intro x h
    cases t with
    | nil => simpa [dedupAdj] using h
    | cons b t' =>
      by_cases hab : a = b
      · rw [dedupAdj, if_pos hab] at h
        exact List.mem_cons_of_mem a (ih h)
      · rw [dedupAdj, if_neg hab] at h
        rcases List.mem_cons.mp h with h1 | h2
        · exact h1 ▸ List.mem_cons_self _ _
        · exact List.mem_cons_of_mem a (ih h2)

lemma dedupAdj_length : ∀ l : List ℕ, (dedupAdj l).length ≤ l.length := by
  intro l
  induction l with
  | nil => simp [dedupAdj]
  | cons a t ih =>
    cases t with
    | nil => simp [dedupAdj]
    | cons b t' =>
      by_cases hab : a = b
      · rw [dedupAdj, if_pos hab]
        exact le_trans ih (by simp)
      · rw [dedupAdj, if_neg hab]
        simpa using ih

lemma linIdx_length (n mp : ℕ) : (linIdx n mp).length = mp := by
  simp [linIdx]

lemma linIdx_head? (n mp : ℕ) (h : 1 ≤ mp) : (linIdx n mp).head? = some 0 := by
  rcases mp with _ | k
  · omega
  · rw [linIdx, List.head?_map, List.range_succ_eq_map]
    simp

lemma linIdx_getLast? (n mp : ℕ) (h : 2 ≤ mp) :
    (linIdx n mp).getLast? = some (n - 1) := by
  rcases mp with _ | k
  · omega
  · rw [linIdx, List.getLast?_map, List.range_succ, List.getLast?_concat]
    simp only [Option.map_some', Nat.add_sub_cancel]
    congr 1
    exact Nat.mul_div_cancel_left (n - 1) (by omega)

lemma linIdx_mem_le {n mp : ℕ} {x : ℕ} (hx : x ∈ linIdx n mp) : x ≤ n - 1 := by
  rw [linIdx, List.mem_map] at hx
  obtain ⟨i, hi, rfl⟩ := hx
  rw [List.mem_range] at hi
  rcases Nat.eq_zero_or_pos (mp - 1) with h0 | hpos
  · simp [h0]
  · calc i * (n - 1) / (mp - 1) ≤ (mp - 1) * (n - 1) / (mp - 1) := by
          apply Nat.div_le_div_right
          exact Nat.mul_le_mul_right _ (by omega)
      _ = n - 1 := Nat.mul_div_cancel_left _ hpos

lemma dsIdx_getLast? (n mp : ℕ) : (dsIdx n mp).getLast? = some (n - 1) := by
  rw [dsIdx]
  by_cases h : (dedupAdj (linIdx n mp)).getLast? = some (n - 1)
  · rw [if_pos h]
    exact h
  · rw [if_neg h]
    exact List.getLast?_concat _

lemma dsIdx_head? (n mp : ℕ) (h : 2 ≤ mp) : (dsIdx n mp).head? = some 0 := by
  have hh : (dedupAdj (linIdx n mp)).head? = some 0 := by
    rw [dedupAdj_head?, linIdx_head? n mp (by omega)]
  rw [dsIdx]
  by_cases hc : (dedupAdj (linIdx n mp)).getLast? = some (n - 1)
  · rw [if_pos hc]
    exact hh
  · rw [if_neg hc]
    rcases hu : dedupAdj (linIdx n mp) with _ | ⟨c, u⟩
    · rw [hu] at hh; simp at hh
    · rw [hu] at hh
      simp at hh
      simp [hh]

lemma dsIdx_length (n mp : ℕ) : (dsIdx n mp).length ≤ mp + 1 := by
  rw [dsIdx]
  have h1 : (dedupAdj (linIdx n mp)).length ≤ mp := by
    have := dedupAdj_length (linIdx n mp)
    rwa [linIdx_length] at this
  by_cases h : (dedupAdj (linIdx n mp)).getLast? = some (n - 1)
  · rw [if_pos h]
    omega
  · rw [if_neg h]
    simp only [List.length_append, List.length_cons, List.length_nil]
    omega

lemma select_length (idx : List ℕ) (xs : List α) (d : α) :
    (select idx xs d).length = idx.length := by
  simp [select]

lemma getD_zero_of_ne_nil {xs : List α} (h : xs ≠ []) (d : α) :
    some (xs.getD 0 d) = xs.head? := by
  rcases xs with _ | ⟨a, t⟩
  · exact absurd rfl h
  · rfl

lemma getD_last_of_ne_nil {xs : List α} (h : xs ≠ []) (d : α) :
    some (xs.getD (xs.length - 1) d) = xs.getLast? := by
  rcases xs with _ | ⟨a, t⟩
  · exact absurd rfl h
  · have hlt : (a :: t).length - 1 < (a :: t).length := by simp
    rw [List.getD_eq_getElem _ _ hlt, List.getLast?_eq_getLast _ (by simp),
      List.getLast_eq_getElem]

lemma select_head? {idx : List ℕ} {xs : List α} {d : α}
    (hi : idx.head? = some 0) (hx : xs ≠ []) :
    (select idx xs d).head? = xs.head? := by
  rw [select, List.head?_map, hi, Option.map_some']
  exact getD_zero_of_ne_nil hx d

lemma select_getLast? {idx : List ℕ} {xs : List α} {d : α}
    (hi : idx.getLast? = some (xs.length - 1)) (hx : xs ≠ []) :
    (select idx xs d).getLast? = xs.getLast? := by
  rw [select, List.getLast?_map, hi, Option.map_some']
  exact getD_last_of_ne_nil hx d

lemma select_map {idx : List ℕ} {xs : List α} {d : α} (f : α → β)
    (hd : f d = d') :
    select idx (xs.map f) d' = (select idx xs d).map f := by
  rw [select, select, List.map_map]
  apply List.map_congr_left
  intro i _
  simp only [Function.comp_apply]
  by_cases h : i < xs.length
  · rw [List.getD_eq_getElem _ _ (by simpa using h), List.getD_eq_getElem _ _ h,
      List.getElem_map]
  · push_neg at h
    rw [List.getD_eq_default _ _ (by simpa using h),
      List.getD_eq_default _ _ h, hd]

lemma dsIdx_mem_lt {n mp x : ℕ} (hn : 1 ≤ n) (hx : x ∈ dsIdx n mp) : x < n := by
  rw [dsIdx] at hx
  by_cases h : (dedupAdj (linIdx n mp)).getLast? = some (n - 1)
  · rw [if_pos h] at hx
    have := linIdx_mem_le (dedupAdj_mem hx)
    omega
  · rw [if_neg h] at hx
    rcases List.mem_append.mp hx with h1 | h2
    · have := linIdx_mem_le (dedupAdj_mem h1)
      omega
    · simp at h2
      omega

lemma downsample_eq_pair (x y : List ℚ) (mp : ℕ) (h : x.length = y.length) :
    downsample x y mp = (downsample_single x mp, downsample_single y mp) := by
  rw [downsample, downsample_single, downsample_single, h]
  by_cases hc : y.length ≤ mp <;> simp [hc]

/-- C7: for every input and every max_points ≥ 2, downsample_single is the
identity at or under max_points, returns at most max_points+1 elements,
preserves the first and last elements, and downsample restricts both paired
arrays to the same index set (it equals downsample_single on each array). -/
theorem C7_downsample_contract (x y : List ℚ) (mp : ℕ) (h2 : 2 ≤ mp) :
    (x.length ≤ mp → downsample_single x mp = x) ∧
    (downsample_single x mp).length ≤ mp + 1 ∧
    (x ≠ [] → (downsample_single x mp).head? = x.head? ∧
      (downsample_single x mp).getLast? = x.getLast?) ∧
    (x.length = y.length →
      downsample x y mp = (downsample_single x mp, downsample_single y mp)) := by
  refine ⟨?_, ?_, ?_, fun h => downsample_eq_pair x y mp h⟩
  · intro h
    rw [downsample_single, if_pos h]
  · rw [downsample_single]
    by_cases hc : x.length ≤ mp
    · rw [if_pos hc]
      omega
    · rw [if_neg hc, select_length]
      exact dsIdx_length _ _
  · intro hx
    rw [downsample_single]
    by_cases hc : x.length ≤ mp
    · rw [if_pos hc]
      exact ⟨rfl, rfl⟩
    · rw [if_neg hc]
      exact ⟨select_head? (dsIdx_head? _ _ h2) hx,
        select_getLast? (dsIdx_getLast? _ _) hx⟩

/-- Witness for C7: concrete evaluations at small inputs. -/
theorem C7_downsample_contract_witness :
    downsample_single ([1, 2, 3, 4] : List ℚ) 2 = [1, 4] ∧
    (downsample_single ([1, 2, 3, 4] : List ℚ) 2).head? = some 1 ∧
    (downsample_single ([1, 2, 3, 4] : List ℚ) 2).getLast? = some 4 ∧
    (downsample_single ([1, 2, 3, 4] : List ℚ) 2).length ≤ 3 ∧
    downsample_single ([1, 2] : List ℚ) 5 = [1, 2] ∧
    downsample ([1, 2, 3, 4] : List ℚ) [5, 6, 7, 8] 2 = ([1, 4], [5, 8]) := by
  have h := C7_downsample_contract ([1, 2, 3, 4] : List ℚ) [5, 6, 7, 8] 2
    (by norm_num)
  have h5 := C7_downsample_contract ([1, 2] : List ℚ) [] 5 (by norm_num)
  have e1 : downsample_single ([1, 2, 3, 4] : List ℚ) 2 = [1, 4] := by
    simp [downsample_single, dsIdx, linIdx, dedupAdj, select, List.range_succ]
  have e2 : downsample_single ([5, 6, 7, 8] : List ℚ) 2 = [5, 8] := by
    simp [downsample_single, dsIdx, linIdx, dedupAdj, select, List.range_succ]
  refine ⟨e1, by rw [e1]; rfl, by rw [e1]; rfl, ?_, h5.1 (by norm_num), ?_⟩
  · simpa using h.2.1
  · rw [h.2.2.2 rfl, e1, e2]

lemma sum_map_sq_sub (xs : List ℚ) (m : ℚ) :
    (xs.map (fun x => (x - m) ^ 2)).sum =
      (xs.map (fun x => x ^ 2)).sum - 2 * m * xs.sum + xs.length * m ^ 2 := by
  induction xs with
  | nil => simp
  | cons a t ih =>
    simp only [List.map_cons, List.sum_cons, List.length_cons, ih]
    push_cast
    ring

lemma meanQ_cons₂ (a b : ℚ) : meanQ [a, b] = (a + b) / 2 := by
  simp [meanQ]

lemma sqDevSum_pair (a b : ℚ) : sqDevSum [a, b] = (a - b) ^ 2 / 2 := by
  rw [sqDevSum, meanQ_cons₂]
  simp only [List.map_cons, List.map_nil, List.sum_cons, List.sum_nil]
  ring

/-- C8: basic_stats returns the sample (denominator n-1) standard deviation and
variance: both exactly 0 for a single-element sequence, for a two-element
sequence [a, b] the variance is (a-b)^2/2 and the std is |a-b|/sqrt 2, and in
general for n ≥ 2 the variance is the sum of squared deviations over n-1 with
std its square root. -/
theorem C8_basic_stats_sample_std :
    (∀ a : ℚ, (basic_stats [a]).std = 0 ∧ (basic_stats [a]).variance = 0) ∧
    (∀ a b : ℚ, (basic_stats [a, b]).variance = (a - b) ^ 2 / 2 ∧
      (basic_stats [a, b]).std = |(a : ℝ) - b| / Real.sqrt 2) ∧
    (∀ xs : List ℚ, 2 ≤ xs.length →
      (basic_stats xs).variance = sqDevSum xs / ((xs.length : ℚ) - 1) ∧
      (basic_stats xs).std = Real.sqrt (((basic_stats xs).variance : ℚ)) ∧
      (basic_stats xs).mean = meanQ xs) := by
  refine ⟨?_, ?_, ?_⟩
  · intro a
    constructor <;> simp [basic_stats]
  · intro a b
    have hv : (basic_stats [a, b]).variance = (a - b) ^ 2 / 2 := by
      simp only [basic_stats, List.length_cons, List.length_nil]
      rw [if_pos (by norm_num), sampleVarQ, sqDevSum_pair]
      norm_num
    refine ⟨hv, ?_⟩
    have hs : (basic_stats [a, b]).std = Real.sqrt (((a - b) ^ 2 / 2 : ℚ)) := by
      simp only [basic_stats, List.length_cons, List.length_nil]
      rw [if_pos (by norm_num), npStdSample, sampleVarQ, sqDevSum_pair]
      norm_num
    rw [hs]
    push_cast
    rw [Real.sqrt_div (sq_nonneg _), Real.sqrt_sq_eq_abs]
  · intro xs hxs
    have hlen : 1 < xs.length := by omega
    refine ⟨?_, ?_, rfl⟩
    · simp only [basic_stats, if_pos hlen]
      rfl
    · simp only [basic_stats, if_pos hlen, npStdSample]

/-- Witness for C8 at xs = [1, 2, 4]. -/
theorem C8_basic_stats_sample_std_witness :
    (basic_stats [(1 : ℚ), 2, 4]).variance = sqDevSum [(1 : ℚ), 2, 4] / 2 ∧
    sqDevSum [(1 : ℚ), 2, 4] / 2 = 7 / 3 ∧
    (basic_stats [(1 : ℚ), 2, 4]).mean = 7 / 3 := by
  have h := C8_basic_stats_sample_std.2.2 [(1 : ℚ), 2, 4] (by norm_num)
  refine ⟨by rw [h.1]; norm_num, by norm_num [sqDevSum, meanQ], ?_⟩
  rw [h.2.2]
  norm_num [meanQ]

lemma popVar_eq_moment {xs : List ℚ} (h : xs ≠ []) :
    popVarQ xs = popVarMoment xs := by
  have hl : 0 < xs.length := List.length_pos.mpr h
  have hn : (xs.length : ℚ) ≠ 0 := by
    exact_mod_cast hl.ne'
  rw [popVarQ, sqDevSum, sum_map_sq_sub, popVarMoment, meanQ]
  field_simp
  ring

lemma npStd_eq_moment {xs : List ℚ} (h : xs ≠ []) :
    npStd xs = popStdMoment xs := by
  rw [npStd, popStdMoment, popVar_eq_moment h]

lemma npStd_guard_eq_moment (xs : List ℚ) :
    (if 1 < xs.length then npStd xs else 0) =
      (if 1 < xs.length then popStdMoment xs else 0) := by
  by_cases h1 : 1 < xs.length
  · rw [if_pos h1, if_pos h1, npStd_eq_moment (by intro hc; rw [hc] at h1; simp at h1)]
  · rw [if_neg h1, if_neg h1]

/-- The unfolded shape of compute_distribution_deviation_metrics when at least
one run qualifies. -/
lemma cddm_eq (runs : List (List ℚ))
    (hq : runs.filter (fun r => 2 ≤ r.length) ≠ []) :
    compute_distribution_deviation_metrics runs =
      (let qual := runs.filter (fun r => 2 ≤ r.length)
       let ks_list := qual.map (fun r => ecdf_ks_statistic_normalized (normalize_to_unit r))
       let mad_list := qual.map (fun r => ecdf_mad_normalized (normalize_to_unit r))
       let regional_list := qual.map (fun r => ecdf_regional_deviation (normalize_to_unit r))
       let r2_list := qual.map (fun r => qq_r_squared_normalized (normalize_to_unit r))
       let mse_list := qual.map (fun r => qq_mse_normalized (normalize_to_unit r))
       { ks_statistic :=
           { mean := meanQ ks_list
             std_dev := if 1 < ks_list.length then npStd ks_list else 0
             cv := safe_cv ks_list }
         mad :=
           { mean := meanQ mad_list
             std_dev := if 1 < mad_list.length then npStd mad_list else 0
             cv := safe_cv mad_list }
         regional_mean :=
           (List.range 5).map (fun i => meanQ (regional_list.map (fun v => v.getD i 0)))
         r_squared :=
           { mean := if r2_list.any (fun o => o.isNone) then none
                     else some (meanQ (r2_list.map (fun o => o.getD 0)))
             std_dev := if 1 < r2_list.length then
                          (if r2_list.any (fun o => o.isNone) then none
                           else some (npStd (r2_list.map (fun o => o.getD 0))))
                        else some 0 }
         mse_from_diagonal :=
           { mean := meanQ mse_list
             std_dev := if 1 < mse_list.length then npStd mse_list else 0 } }) := by
  have hne : ¬((runs.filter (fun r => 2 ≤ r.length)).map
      (fun r => ecdf_ks_statistic_normalized (normalize_to_unit r))).length = 0 := by
    simp only [List.length_map, List.length_eq_zero]
    exact hq
  rw [compute_distribution_deviation_metrics]
  simp only [if_neg hne]

/-- C2 (amended): the cross-run aggregation uses the population (ddof=0)
standard deviation, not the sample one: calc_metric_stats reports the
population std of the metric values (0 if only one), and the deviation-metric
aggregation reports mean, population std and (for ks_statistic and mad only)
cv = safe_cv over the qualifying-run metric lists; r_squared and
mse_from_diagonal carry no cv field. -/
theorem C2_aggregation_population_std :
    (∀ metric : List ℚ, metric ≠ [] →
      calc_metric_stats metric =
        { mean := meanQ metric
          std_dev := if 1 < metric.length then popStdMoment metric else 0
          range := listMax metric - listMin metric }) ∧
    (∀ runs : List (List ℚ), runs.filter (fun r => 2 ≤ r.length) ≠ [] →
      (compute_distribution_deviation_metrics runs).ks_statistic.mean =
        meanQ ((runs.filter (fun r => 2 ≤ r.length)).map
          (fun r => ecdf_ks_statistic_normalized (normalize_to_unit r))) ∧
      (compute_distribution_deviation_metrics runs).ks_statistic.std_dev =
        (if 1 < ((runs.filter (fun r => 2 ≤ r.length)).map
            (fun r => ecdf_ks_statistic_normalized (normalize_to_unit r))).length
         then popStdMoment ((runs.filter (fun r => 2 ≤ r.length)).map
            (fun r => ecdf_ks_statistic_normalized (normalize_to_unit r)))
         else 0) ∧
      (compute_distribution_deviation_metrics runs).ks_statistic.cv =
        safe_cv ((runs.filter (fun r => 2 ≤ r.length)).map
          (fun r => ecdf_ks_statistic_normalized (normalize_to_unit r))) ∧
      (compute_distribution_deviation_metrics runs).mad.std_dev =
        (if 1 < ((runs.filter (fun r => 2 ≤ r.length)).map
            (fun r => ecdf_mad_normalized (normalize_to_unit r))).length
         then popStdMoment ((runs.filter (fun r => 2 ≤ r.length)).map
            (fun r => ecdf_mad_normalized (normalize_to_unit r)))
         else 0) ∧
      (compute_distribution_deviation_metrics runs).mse_from_diagonal.std_dev =
        (if 1 < ((runs.filter (fun r => 2 ≤ r.length)).map
            (fun r => qq_mse_normalized (normalize_to_unit r))).length
         then popStdMoment ((runs.filter (fun r => 2 ≤ r.length)).map
            (fun r => qq_mse_normalized (normalize_to_unit r)))
         else 0)) := by
  constructor
  · intro metric hm
    have hlen : metric.length ≠ 0 := (List.length_pos.mpr hm).ne'
    rw [calc_metric_stats, if_neg hlen]
    by_cases h1 : 1 < metric.length
    · rw [if_pos h1, if_pos h1, npStd_eq_moment hm]
    · rw [if_neg h1, if_neg h1]
  · intro runs hq
    rw [cddm_eq runs hq]
    exact ⟨rfl, npStd_guard_eq_moment _, rfl, npStd_guard_eq_moment _,
      npStd_guard_eq_moment _⟩

/-- Witness for C2 at concrete inputs: two metric values {0, 2} and the
single run [0, 1]. -/
theorem C2_aggregation_population_std_witness :
    (calc_metric_stats [(0 : ℚ), 2]).mean = 1 ∧
    (calc_metric_stats [(0 : ℚ), 2]).std_dev = popStdMoment [(0 : ℚ), 2] ∧
    (compute_distribution_deviation_metrics [[(0 : ℚ), 1]]).ks_statistic.mean
      = 1 / 2 := by
  have h1 := C2_aggregation_population_std.1 [(0 : ℚ), 2] (by simp)
  have h2 := C2_aggregation_population_std.2 [[(0 : ℚ), 1]] (by simp)
  refine ⟨?_, ?_, ?_⟩
  · rw [h1]
    norm_num [meanQ]
  · rw [h1]
    norm_num
  · rw [h2.1]
    have hn : normalize_to_unit [(0 : ℚ), 1] = [0, 1] := by
      norm_num [normalize_to_unit, listMin, listMax]
    have he : ecdf_ks_statistic_normalized [(0 : ℚ), 1] = 1 / 2 := by
      rw [ecdf_ks_statistic_normalized]
      norm_num [sortQ, List.insertionSort, List.orderedInsert, List.range_succ,
        listMax]
    simp only [List.filter, List.map]
    norm_num [hn, he, meanQ]

/-- C2 counterexample: with metric values {0, 2} across two retained runs the
reported std_dev is the population value 1, while the sample standard
deviation the claim asserts is sqrt 2. -/
theorem C2_sample_std_counterexample :
    (calc_metric_stats [(0 : ℚ), 2]).std_dev = 1 ∧
    sampleStdSpec [(0 : ℚ), 2] = Real.sqrt 2 ∧
    (calc_metric_stats [(0 : ℚ), 2]).std_dev ≠ sampleStdSpec [(0 : ℚ), 2] := by
  have e1 : (calc_metric_stats [(0 : ℚ), 2]).std_dev = 1 := by
    rw [calc_metric_stats]
    norm_num [npStd, popVarQ, sqDevSum, meanQ]
  have e2 : sampleStdSpec [(0 : ℚ), 2] = Real.sqrt 2 := by
    rw [sampleStdSpec]
    norm_num [sqDevSum, meanQ]
  refine ⟨e1, e2, ?_⟩
  rw [e1, e2]
  intro hcon
  have h2 : (1 : ℝ) < Real.sqrt 2 := by
    rw [show (1 : ℝ) = Real.sqrt 1 from (Real.sqrt_one).symm]
    exact Real.sqrt_lt_sqrt (by norm_num) (by norm_num)
  rw [← hcon] at h2
  exact lt_irrefl _ h2

lemma foldl_min_le_init : ∀ (l : List ℚ) (a : ℚ), l.foldl min a ≤ a := by
  intro l
  induction l with
  | nil => intro a; simp
  | cons b t ih =>
    intro a
    calc (b :: t).foldl min a = t.foldl min (min a b) := by simp
      _ ≤ min a b := ih (min a b)
      _ ≤ a := min_le_left _ _

lemma foldl_min_le_mem : ∀ (l : List ℚ) (a : ℚ), ∀ x ∈ l, l.foldl min a ≤ x := by
  intro l
  induction l with
  | nil => intro a x hx; simp at hx
  | cons b t ih =>
    intro a x hx
    rcases List.mem_cons.mp hx with hxb | hxt
    · rw [hxb]
      calc (b :: t).foldl min a = t.foldl min (min a b) := by simp
        _ ≤ min a b := foldl_min_le_init t _
        _ ≤ b := min_le_right _ _
    · simpa using ih (min a b) x hxt

lemma foldl_min_mem : ∀ (l : List ℚ) (a : ℚ), l.foldl min a = a ∨ l.foldl min a ∈ l := by
  intro l
  induction l with
  | nil => intro a; left; rfl
  | cons b t ih =>
    intro a
    have hfold : (b :: t).foldl min a = t.foldl min (min a b) := by simp
    rcases ih (min a b) with h | h
    · rcases min_choice a b with hc | hc
      · left; rw [hfold, h, hc]
      · right; rw [hfold, h, hc]; exact List.mem_cons_self _ _
    · right
      rw [hfold]
      exact List.mem_cons_of_mem _ h

lemma foldl_max_ge_init : ∀ (l : List ℚ) (a : ℚ), a ≤ l.foldl max a := by
  intro l
  induction l with
  | nil => intro a; simp
  | cons b t ih =>
    intro a
    calc a ≤ max a b := le_max_left _ _
      _ ≤ t.foldl max (max a b) := ih (max a b)
      _ = (b :: t).foldl max a := by simp

lemma foldl_max_ge_mem : ∀ (l : List ℚ) (a : ℚ), ∀ x ∈ l, x ≤ l.foldl max a := by
  intro l
  induction l with
  | nil => intro a x hx; simp at hx
  | cons b t ih =>
    intro a x hx
    rcases List.mem_cons.mp hx with hxb | hxt
    · rw [hxb]
      calc b ≤ max a b := le_max_right _ _
        _ ≤ t.foldl max (max a b) := foldl_max_ge_init t _
        _ = (b :: t).foldl max a := by simp
    · simpa using ih (max a b) x hxt

lemma foldl_max_mem : ∀ (l : List ℚ) (a : ℚ), l.foldl max a = a ∨ l.foldl max a ∈ l := by
  intro l
  induction l with
  | nil => intro a; left; rfl
  | cons b t ih =>
    intro a
    have hfold : (b :: t).foldl max a = t.foldl max (max a b) := by simp
    rcases ih (max a b) with h | h
    · rcases max_choice a b with hc | hc
      · left; rw [hfold, h, hc]
      · right; rw [hfold, h, hc]; exact List.mem_cons_self _ _
    · right
      rw [hfold]
      exact List.mem_cons_of_mem _ h

lemma listMin_le {xs : List ℚ} (x : ℚ) (hx : x ∈ xs) : listMin xs ≤ x := by
  rcases xs with _ | ⟨a, t⟩
  · simp at hx
  · rw [listMin]
    rcases List.mem_cons.mp hx with rfl | hxt
    · exact foldl_min_le_init t x
    · exact foldl_min_le_mem t a x hxt

lemma listMin_mem {xs : List ℚ} (h : xs ≠ []) : listMin xs ∈ xs := by
  rcases xs with _ | ⟨a, t⟩
  · exact absurd rfl h
  · rw [listMin]
    rcases foldl_min_mem t a with he | he
    · rw [he]; exact List.mem_cons_self _ _
    · exact List.mem_cons_of_mem _ he

lemma listMax_ge {xs : List ℚ} (x : ℚ) (hx : x ∈ xs) : x ≤ listMax xs := by
  rcases xs with _ | ⟨a, t⟩
  · simp at hx
  · rw [listMax]
    rcases List.mem_cons.mp hx with rfl | hxt
    · exact foldl_max_ge_init t x
    · exact foldl_max_ge_mem t a x hxt

lemma listMax_mem {xs : List ℚ} (h : xs ≠ []) : listMax xs ∈ xs := by
  rcases xs with _ | ⟨a, t⟩
  · exact absurd rfl h
  · rw [listMax]
    rcases foldl_max_mem t a with he | he
    · rw [he]; exact List.mem_cons_self _ _
    · exact List.mem_cons_of_mem _ he

lemma splitBySizes_join : ∀ (szs : List ℕ) (xs : List ℚ),
    szs.sum = xs.length → (splitBySizes xs szs).flatten = xs := by
  intro szs
  induction szs with
  | nil =>
    intro xs h
    simp at h
    rw [List.eq_nil_of_length_eq_zero h.symm]
    rfl
  | cons s ss ih =>
    intro xs h
    simp only [List.sum_cons] at h
    rw [splitBySizes, List.flatten_cons, ih (xs.drop s) (by simp; omega)]
    exact List.take_append_drop s xs

lemma splitBySizes_map_length : ∀ (szs : List ℕ) (xs : List ℚ),
    szs.sum = xs.length → (splitBySizes xs szs).map List.length = szs := by
  intro szs
  induction szs with
  | nil => intro xs h; rfl
  | cons s ss ih =>
    intro xs h
    simp only [List.sum_cons] at h
    rw [splitBySizes, List.map_cons, ih (xs.drop s) (by simp; omega)]
    congr 1
    simp
    omega

lemma npArraySplitSizes_sum (n : ℕ) : (npArraySplitSizes n 4).sum = n := by
  have h4 : n % 4 = 0 ∨ n % 4 = 1 ∨ n % 4 = 2 ∨ n % 4 = 3 := by omega
  rcases h4 with h | h | h | h <;>
    · simp [npArraySplitSizes, List.range_succ, h]
      omega

lemma npArraySplitSizes_bounds {n s : ℕ} (hs : s ∈ npArraySplitSizes n 4) :
    n / 4 ≤ s ∧ s ≤ n / 4 + 1 := by
  rw [npArraySplitSizes, List.mem_map] at hs
  obtain ⟨i, _, rfl⟩ := hs
  by_cases hi : i < n % 4 <;> simp [hi]

/-- C3 (amended): stationarity splits the sequence with np.array_split into 4
contiguous chunks whose sizes are n/4 or n/4+1, the FIRST n mod 4 chunks
taking the extra element (not the last); empty chunks (n < 4) produce no
record; every nonempty chunk yields a record carrying its 1-based original
position, its mean, its sample (ddof=1, 0 for singletons) std, and its true
min and max. -/
theorem C3_stationarity_chunks_amended (arr : List ℚ) (h : arr ≠ []) :
    (np_array_split arr 4).flatten = arr ∧
    (np_array_split arr 4).map List.length = npArraySplitSizes arr.length 4 ∧
    (∀ s ∈ npArraySplitSizes arr.length 4,
      arr.length / 4 ≤ s ∧ s ≤ arr.length / 4 + 1) ∧
    (∀ i : ℕ, ∀ hi : i < (np_array_split arr 4).length,
      ∀ hc : (np_array_split arr 4).get ⟨i, hi⟩ ≠ [],
      ({ chunk := i + 1
         mean := meanQ ((np_array_split arr 4).get ⟨i, hi⟩)
         std := if 1 < ((np_array_split arr 4).get ⟨i, hi⟩).length
                then npStdSample ((np_array_split arr 4).get ⟨i, hi⟩) else 0
         min := listMin ((np_array_split arr 4).get ⟨i, hi⟩)
         max := listMax ((np_array_split arr 4).get ⟨i, hi⟩) } : ChunkStats)
        ∈ stationarity_chunks arr ∧
      (∀ x ∈ (np_array_split arr 4).get ⟨i, hi⟩,
        listMin ((np_array_split arr 4).get ⟨i, hi⟩) ≤ x ∧
        x ≤ listMax ((np_array_split arr 4).get ⟨i, hi⟩)) ∧
      listMin ((np_array_split arr 4).get ⟨i, hi⟩) ∈
        (np_array_split arr 4).get ⟨i, hi⟩ ∧
      listMax ((np_array_split arr 4).get ⟨i, hi⟩) ∈
        (np_array_split arr 4).get ⟨i, hi⟩) := by
  have hsum : (npArraySplitSizes arr.length 4).sum = arr.length :=
    npArraySplitSizes_sum arr.length
  refine ⟨splitBySizes_join _ _ hsum, splitBySizes_map_length _ _ hsum,
    fun s hs => npArraySplitSizes_bounds hs, ?_⟩
  intro i hi hc
  refine ⟨?_, fun x hx => ⟨listMin_le x hx, listMax_ge x hx⟩,
    listMin_mem hc, listMax_mem hc⟩
  rw [stationarity_chunks]
  apply List.mem_filterMap.mpr
  refine ⟨(i, (np_array_split arr 4).get ⟨i, hi⟩), ?_, ?_⟩
  · have hlen : i < (np_array_split arr 4).enum.length := by
      simpa using hi
    have hval : (np_array_split arr 4).enum.get ⟨i, hlen⟩ =
        (i, (np_array_split arr 4).get ⟨i, hi⟩) := by
      simp [List.getElem_enum]
    rw [← hval]
    exact List.get_mem _ _ _
  · have hne : ¬((np_array_split arr 4).get ⟨i, hi⟩).length = 0 := by
      simpa [List.length_eq_zero] using hc
    simp only [hne, if_false, if_neg hne]

/-- Witness for C3 at arr = [1, 2, 3, 4, 5]: chunk sizes [2, 1, 1, 1] with the
first chunk taking the remainder. -/
theorem C3_stationarity_chunks_amended_witness :
    (np_array_split [(1 : ℚ), 2, 3, 4, 5] 4).flatten = [1, 2, 3, 4, 5] ∧
    (np_array_split [(1 : ℚ), 2, 3, 4, 5] 4).map List.length = [2, 1, 1, 1] ∧
    np_array_split [(1 : ℚ), 2, 3, 4, 5] 4 = [[1, 2], [3], [4], [5]] := by
  have h := C3_stationarity_chunks_amended [(1 : ℚ), 2, 3, 4, 5] (by simp)
  have hs : npArraySplitSizes (5 : ℕ) 4 = [2, 1, 1, 1] := by
    simp [npArraySplitSizes, List.range_succ]
  refine ⟨h.1, ?_, ?_⟩
  · have := h.2.1
    simpa [hs] using this
  · simp [np_array_split, npArraySplitSizes, splitBySizes, List.range_succ]

/-- C3 counterexample: on [0, 4, 0, 0, 0] the code puts the remainder into the
FIRST chunk ([0, 4], mean 2), while a last-chunk-absorbs split would start
with [0] (mean 0); so the claimed chunking is not the implemented one. -/
theorem C3_stationarity_chunks_counterexample :
    ((stationarity_chunks [(0 : ℚ), 4, 0, 0, 0]).map (fun c => c.mean)) =
      [2, 0, 0, 0] ∧
    ((chunksSpecLastAbsorbs [(0 : ℚ), 4, 0, 0, 0]).map meanQ) = [0, 4, 0, 0] ∧
    ((stationarity_chunks [(0 : ℚ), 4, 0, 0, 0]).map (fun c => c.mean)) ≠
      ((chunksSpecLastAbsorbs [(0 : ℚ), 4, 0, 0, 0]).map meanQ) := by
  have e1 : (stationarity_chunks [(0 : ℚ), 4, 0, 0, 0]).map (fun c => c.mean) =
      [2, 0, 0, 0] := by
    norm_num [stationarity_chunks, np_array_split, npArraySplitSizes, splitBySizes,
      List.range_succ, List.enum, List.filterMap_cons, meanQ]
    rfl
  have e2 : (chunksSpecLastAbsorbs [(0 : ℚ), 4, 0, 0, 0]).map meanQ =
      [0, 4, 0, 0] := by
    norm_num [chunksSpecLastAbsorbs, splitBySizes, meanQ]
  refine ⟨e1, e2, ?_⟩
  rw [e1, e2]
  simp

lemma linspaceQ_length (a b : ℚ) (num : ℕ) : (linspaceQ a b num).length = num := by
  rcases num with _ | _ | n <;> simp [linspaceQ]

lemma qq_theoretical_length (arr : List ℚ) :
    (qq_theoretical arr).length = arr.length := by
  simp [qq_theoretical, linspaceQ_length]

lemma sortQ_length (xs : List ℚ) : (sortQ xs).length = xs.length :=
  List.length_insertionSort _ _

lemma linspaceQ_getD {a b : ℚ} {num i : ℕ} (h2 : 2 ≤ num) (hi : i < num) :
    (linspaceQ a b num).getD i 0 = a + i * (b - a) / ((num : ℚ) - 1) := by
  rcases num with _ | _ | n
  · omega
  · omega
  · have hlen : i < ((List.range (n + 2)).map
        (fun (i : ℕ) => a + (i : ℚ) * (b - a) / (((n + 2 : ℕ) : ℚ) - 1))).length := by
      simpa using hi
    show ((List.range (n + 2)).map
        (fun (i : ℕ) => a + (i : ℚ) * (b - a) / (((n + 2 : ℕ) : ℚ) - 1))).getD i 0 = _
    rw [List.getD_eq_getElem _ _ hlen, List.getElem_map, List.getElem_range]

/-- C1 (amended): for every non-empty sequence, qq_plot has sample = sorted
sequence and theoretical = uniform quantiles over [min, max] at n evenly
spaced probability points between 0.01 and 0.99 where n is the SEQUENCE
LENGTH (not 99); both arrays go through the same downsampling to
MAX_CHART_POINTS (downsample equals downsample_single on each), and at or
under MAX_CHART_POINTS they are returned exactly. -/
theorem C1_qq_plot_amended (arr : List ℚ) (h : arr ≠ []) :
    (qq_plot arr).1 = downsample_single (sortQ arr) MAX_CHART_POINTS ∧
    (qq_plot arr).2 = downsample_single (qq_theoretical arr) MAX_CHART_POINTS ∧
    (qq_theoretical arr).length = arr.length ∧
    (arr.length ≤ MAX_CHART_POINTS →
      (qq_plot arr).1 = sortQ arr ∧ (qq_plot arr).2 = qq_theoretical arr) ∧
    (∀ i : ℕ, i < arr.length → 2 ≤ arr.length →
      (qq_theoretical arr).getD i 0 =
        uniform_ppf (listMin arr) (listMax arr - listMin arr)
          (1 / 100 + (i : ℚ) * (99 / 100 - 1 / 100) / ((arr.length : ℚ) - 1))) := by
  have hlen : (sortQ arr).length = (qq_theoretical arr).length := by
    rw [sortQ_length, qq_theoretical_length]
  have hpair : qq_plot arr =
      (downsample_single (sortQ arr) MAX_CHART_POINTS,
       downsample_single (qq_theoretical arr) MAX_CHART_POINTS) := by
    rw [qq_plot, downsample_eq_pair _ _ _ hlen]
  refine ⟨by rw [hpair], by rw [hpair], qq_theoretical_length arr, ?_, ?_⟩
  · intro hsmall
    constructor
    · rw [hpair]
      simp only [downsample_single, sortQ_length, if_pos hsmall]
    · rw [hpair]
      simp only [downsample_single, qq_theoretical_length, if_pos hsmall]
  · intro i hi h2
    rw [qq_theoretical]
    have hil : i < (linspaceQ (1 / 100) (99 / 100) arr.length).length := by
      rw [linspaceQ_length]
      exact hi
    rw [List.getD_eq_getElem _ _ (by simpa using hil), List.getElem_map]
    have := linspaceQ_getD (a := 1 / 100) (b := 99 / 100) h2 hi
    rw [List.getD_eq_getElem _ _ hil] at this
    rw [this]

/-- Witness for C1 at arr = [2, 0, 1]. -/
theorem C1_qq_plot_amended_witness :
    (qq_plot [(2 : ℚ), 0, 1]).1 = [0, 1, 2] ∧
    (qq_plot [(2 : ℚ), 0, 1]).2 = [1 / 50, 1, 99 / 50] ∧
    (qq_theoretical [(2 : ℚ), 0, 1]).length = 3 := by
  have h := C1_qq_plot_amended [(2 : ℚ), 0, 1] (by simp)
  have hid := h.2.2.2.1 (by norm_num [MAX_CHART_POINTS])
  have hsort : sortQ [(2 : ℚ), 0, 1] = [0, 1, 2] := by
    norm_num [sortQ, List.insertionSort, List.orderedInsert]
  have htheo : qq_theoretical [(2 : ℚ), 0, 1] = [1 / 50, 1, 99 / 50] := by
    norm_num [qq_theoretical, linspaceQ, List.range_succ, uniform_ppf,
      listMin, listMax]
  exact ⟨by rw [hid.1, hsort], by rw [hid.2, htheo], h.2.2.1⟩

/-- C1 counterexample: on [0, 1, 2] the returned theoretical array is the
3-entry [1/50, 1, 99/50], while quantiles at 99 evenly spaced probability
points (as the claim states) form a 99-entry array; the two differ. -/
theorem C1_qq_theoretical_not_99_counterexample :
    (qq_plot [(0 : ℚ), 1, 2]).2 = [1 / 50, 1, 99 / 50] ∧
    (qq_plot [(0 : ℚ), 1, 2]).2.length = 3 ∧
    (qqTheoreticalSpec99 [(0 : ℚ), 1, 2]).length = 99 ∧
    (qq_plot [(0 : ℚ), 1, 2]).2 ≠ qqTheoreticalSpec99 [(0 : ℚ), 1, 2] := by
  have e1 : (qq_plot [(0 : ℚ), 1, 2]).2 = [1 / 50, 1, 99 / 50] := by
    have hsmall : ([(0 : ℚ), 1, 2] : List ℚ).length ≤ MAX_CHART_POINTS := by
      norm_num [MAX_CHART_POINTS]
    have hlen : (sortQ [(0 : ℚ), 1, 2]).length =
        (qq_theoretical [(0 : ℚ), 1, 2]).length := by
      rw [sortQ_length, qq_theoretical_length]
    rw [qq_plot, downsample_eq_pair _ _ _ hlen]
    show downsample_single (qq_theoretical [(0 : ℚ), 1, 2]) MAX_CHART_POINTS = _
    rw [downsample_single, if_pos (by rw [qq_theoretical_length]; exact hsmall)]
    norm_num [qq_theoretical, linspaceQ, List.range_succ, uniform_ppf,
      listMin, listMax]
  have e3 : (qqTheoreticalSpec99 [(0 : ℚ), 1, 2]).length = 99 := by
    rw [qqTheoreticalSpec99, List.length_map, linspaceQ_length]
  refine ⟨e1, by rw [e1]; rfl, e3, ?_⟩
  intro hcon
  have : ((qq_plot [(0 : ℚ), 1, 2]).2).length =
      (qqTheoreticalSpec99 [(0 : ℚ), 1, 2]).length := by rw [hcon]
  rw [e1, e3] at this
  simp at this

lemma sqDevSum_nonneg (xs : List ℚ) : 0 ≤ sqDevSum xs := by
  apply List.sum_nonneg
  intro x hx
  rw [List.mem_map] at hx
  obtain ⟨y, _, rfl⟩ := hx
  positivity

/-- C4 (amended): numerically degenerate metric values are represented, not
raised: qq_r_squared_normalized returns NaN (none) exactly when there are
fewer than 2 points or SS_tot is 0, and safe_cv returns 0 instead of dividing
by a zero mean; HOWEVER single-run distribution analysis of a constant
(zero-variance) sequence raises at the gaussian_kde step instead of
returning a result. -/
theorem C4_degenerate_values_amended :
    (∀ u : List ℚ, qq_r_squared_normalized u = none ↔
      (u.length < 2 ∨ sqDevSum (sortQ u) = 0)) ∧
    (∀ xs : List ℚ, meanQ xs = 0 → safe_cv xs = 0) ∧
    (∀ xs : List ℚ, ∀ c : ℚ, 2 ≤ xs.length → (∀ x ∈ xs, x = c) →
      distribution_analysis xs =
        Except.error "gaussian_kde: singular data covariance matrix") := by
  refine ⟨?_, ?_, ?_⟩
  · intro u
    by_cases h2 : u.length < 2
    · simp [qq_r_squared_normalized, h2]
    · rw [qq_r_squared_normalized, if_neg h2]
      by_cases hss : sqDevSum (sortQ u) ≤ 0
      · have h0 : sqDevSum (sortQ u) = 0 :=
          le_antisymm hss (sqDevSum_nonneg _)
        simp [hss, h0]
      · push_neg at hss
        simp only [if_neg (not_le.mpr hss)]
        constructor
        · intro hcon
          exact absurd hcon (by simp)
        · intro hcon
          rcases hcon with hc | hc
          · exact absurd hc h2
          · rw [hc] at hss
            exact absurd hss (lt_irrefl 0)
  · intro xs h
    rw [safe_cv, if_pos (Or.inr h)]
  · intro xs c h2 hc
    have hne : xs ≠ [] := by
      intro hnil
      rw [hnil] at h2
      simp at h2
    have hmax : listMax xs = c := hc _ (listMax_mem hne)
    have hmin : listMin xs = c := hc _ (listMin_mem hne)
    rw [distribution_analysis, if_neg (by omega), if_pos (by rw [hmax, hmin])]

/-- Witness for C4: a constant normalized run, a zero-mean list, and a
constant sequence through distribution analysis. -/
theorem C4_degenerate_values_amended_witness :
    qq_r_squared_normalized [(1 : ℚ) / 2, 1 / 2] = none ∧
    safe_cv [(-1 : ℚ), 1] = 0 ∧
    distribution_analysis [(5 : ℚ), 5, 5] =
      Except.error "gaussian_kde: singular data covariance matrix" := by
  refine ⟨?_, ?_, ?_⟩
  · apply (C4_degenerate_values_amended.1 _).mpr
    right
    norm_num [sortQ, List.insertionSort, List.orderedInsert, sqDevSum, meanQ]
  · exact C4_degenerate_values_amended.2.1 _ (by norm_num [meanQ])
  · refine C4_degenerate_values_amended.2.2 [(5 : ℚ), 5, 5] 5 (by norm_num) ?_
    intro x hx
    simp at hx
    exact hx

/-- C4 counterexample: the constant sequence [5, 5, 5] makes single-run
distribution analysis fail at the gaussian_kde step (zero variance), so the
claim that a constant sequence yields a result rather than an exception is
false on the code. -/
theorem C4_constant_sequence_counterexample :
    distribution_analysis [(5 : ℚ), 5, 5] =
      Except.error "gaussian_kde: singular data covariance matrix" ∧
    (distribution_analysis [(5 : ℚ), 5, 5]).isOk = false := by
  have e : distribution_analysis [(5 : ℚ), 5, 5] =
      Except.error "gaussian_kde: singular data covariance matrix" := by
    norm_num [distribution_analysis, listMin, listMax]
  exact ⟨e, by rw [e]; rfl⟩

lemma onesCount_le (bits : List Bool) : onesCount bits ≤ bits.length :=
  List.length_filter_le _ _

lemma runsVariance_pos {bits : List Bool} (h2 : 2 ≤ bits.length)
    (ho : 1 ≤ onesCount bits) (hz : onesCount bits < bits.length)
    (hne : ¬(bits.length = 2 ∧ onesCount bits = 1)) :
    0 < runsVarianceQ bits := by
  have hle := onesCount_le bits
  set n := bits.length with hn
  set o := onesCount bits with ho'
  have hcase : 2 ≤ o ∨ 2 ≤ n - o := by omega
  have hnat : n < 2 * o * (n - o) := by
    set z := n - o with hzdef
    have hz1 : 1 ≤ z := by omega
    have hon : o + z = n := by omega
    have hd : 2 * o * z = 2 * (o * z) := by ring
    rcases hcase with hc | hc
    · have ha : o ≤ o * z := Nat.le_mul_of_pos_right o (by omega)
      have hb : 2 * z ≤ o * z := Nat.mul_le_mul_right z (by omega)
      omega
    · have ha : z ≤ o * z := Nat.le_mul_of_pos_left z (by omega)
      have hb : 2 * o ≤ z * o := Nat.mul_le_mul_right o (by omega)
      have hb' : z * o = o * z := Nat.mul_comm z o
      omega
  rw [runsVarianceQ]
  simp only [← hn, ← ho']
  have hzcast : ((n - o : ℕ) : ℚ) = (n : ℚ) - o := by
    push_cast [Nat.cast_sub (le_of_lt hz)]
    ring
  apply div_pos
  · apply mul_pos
    · have h1 : (0 : ℚ) < o := by exact_mod_cast ho
      have h2' : (0 : ℚ) < ((n - o : ℕ) : ℚ) := by
        rw [hzcast]
        have : (o : ℚ) < n := by exact_mod_cast hz
        linarith
      positivity
    · have : (n : ℚ) < 2 * o * ((n - o : ℕ) : ℚ) := by
        exact_mod_cast hnat
      linarith
  · have hn2 : (2 : ℚ) ≤ n := by exact_mod_cast h2
    have hnpos : (0 : ℚ) < n := by linarith
    have : (0 : ℚ) < (n : ℚ) - 1 := by linarith
    positivity

/-- C6 (amended): the runs test returns the error record (p_value and
statistic null, passed false) for sequences of fewer than 2 bits
("Sequence too short") and for monochrome sequences ("Sequence contains only
one type of bit"); it ALSO returns an error record ("Invalid variance") for
the two-bit sequences with one 1 and one 0, where the variance formula is 0;
for every other input it returns the success shape whose passed flag is
exactly (p_value > 0.01), and it never raises (total function). -/
theorem C6_runs_test_amended (bits : List Bool) :
    (bits.length < 2 → runs_test bits = runsTestError "Sequence too short") ∧
    (2 ≤ bits.length →
      (onesCount bits = 0 ∨ onesCount bits = bits.length) →
      runs_test bits = runsTestError "Sequence contains only one type of bit") ∧
    (bits.length = 2 → onesCount bits = 1 →
      runs_test bits = runsTestError "Invalid variance") ∧
    (2 ≤ bits.length → 1 ≤ onesCount bits → onesCount bits < bits.length →
      ¬(bits.length = 2 ∧ onesCount bits = 1) →
      runs_test bits =
        { p_value := some (runsPValue bits)
          statistic := some (runsZStat bits)
          runs := some (1 + adjChanges bits)
          expected_runs := some (runsExpectedQ bits)
          ones := some (onesCount bits)
          zeros := some (bits.length - onesCount bits)
          passed := if 1 / 100 < runsPValue bits then true else false
          error := none } ∧
      ((runs_test bits).passed = true ↔ 1 / 100 < runsPValue bits)) := by
  have hle := onesCount_le bits
  refine ⟨?_, ?_, ?_, ?_⟩
  · intro h
    rw [runs_test, if_pos h]
  · intro h2 hmono
    rw [runs_test, if_neg (by omega), if_pos (by omega)]
  · intro hn ho
    have hv : runsVarianceQ bits = 0 := by
      rw [runsVarianceQ]
      rw [hn, ho]
      norm_num
    rw [runs_test, if_neg (by omega), if_neg (by omega), if_pos (le_of_eq hv)]
  · intro h2 ho hz hne
    have hv := runsVariance_pos h2 ho hz hne
    have hrec : runs_test bits =
        { p_value := some (runsPValue bits)
          statistic := some (runsZStat bits)
          runs := some (1 + adjChanges bits)
          expected_runs := some (runsExpectedQ bits)
          ones := some (onesCount bits)
          zeros := some (bits.length - onesCount bits)
          passed := if 1 / 100 < runsPValue bits then true else false
          error := none } := by
      rw [runs_test, if_neg (by omega), if_neg (by omega),
        if_neg (not_le.mpr hv)]
    refine ⟨hrec, ?_⟩
    rw [hrec]
    by_cases hp : 1 / 100 < runsPValue bits <;> simp [hp]

/-- Witness for C6: each branch at a concrete bit sequence. -/
theorem C6_runs_test_amended_witness :
    runs_test [true] = runsTestError "Sequence too short" ∧
    runs_test [true, true, true] =
      runsTestError "Sequence contains only one type of bit" ∧
    runs_test [false, true] = runsTestError "Invalid variance" ∧
    (runs_test [false, true, true]).error = none ∧
    ((runs_test [false, true, true]).passed = true ↔
      1 / 100 < runsPValue [false, true, true]) := by
  have h1 := (C6_runs_test_amended [true]).1 (by norm_num)
  have h2 := (C6_runs_test_amended [true, true, true]).2.1 (by norm_num)
    (Or.inr (by decide))
  have h3 := (C6_runs_test_amended [false, true]).2.2.1 rfl (by decide)
  have h4 := (C6_runs_test_amended [false, true, true]).2.2.2 (by norm_num)
    (by decide) (by decide) (by decide)
  exact ⟨h1, h2, h3, by rw [h4.1], h4.2⟩

/-- C6 counterexample: [0, 1] has 2 bits and both bit values, so by the claim
it should return the success shape; the code returns the "Invalid variance"
error record instead. -/
theorem C6_two_bit_counterexample :
    ([false, true] : List Bool).length = 2 ∧
    onesCount [false, true] = 1 ∧
    runs_test [false, true] = runsTestError "Invalid variance" ∧
    (runs_test [false, true]).p_value = none ∧
    (runs_test [false, true]).error = some "Invalid variance" := by
  have e : runs_test [false, true] = runsTestError "Invalid variance" := by
    rw [runs_test, if_neg (by norm_num), if_neg (by decide)]
    rw [if_pos]
    rw [runsVarianceQ]
    norm_num [onesCount]
  exact ⟨rfl, rfl, e, by rw [e]; rfl, by rw [e]; rfl⟩

lemma getD_mem {xs : List α} {i : ℕ} (h : i < xs.length) (d : α) :
    xs.getD i d ∈ xs := by
  rw [List.getD_eq_getElem _ _ h]
  exact List.getElem_mem h

lemma spectral_freqAll_pos (arr : List ℚ) :
    ∀ f ∈ spectral_freqAll arr, 0 < f := by
  intro f hf
  rw [spectral_freqAll, List.mem_map] at hf
  obtain ⟨k, hk, rfl⟩ := hf
  rw [posFreqIdx, List.mem_filter] at hk
  exact of_decide_eq_true hk.2

lemma specSelIdx_mem_lt {L i : ℕ} (hL : 1 ≤ L) (hi : i ∈ specSelIdx L) :
    i < L := by
  rw [specSelIdx] at hi
  have := linIdx_mem_le (dedupAdj_mem hi)
  omega

lemma spectral_freqAll_length (arr : List ℚ) :
    (spectral_freqAll arr).length = (posFreqIdx arr.length).length := by
  simp [spectral_freqAll]

lemma spectral_magAll_length (arr : List ℚ) :
    (spectral_magAll arr).length = (posFreqIdx arr.length).length := by
  simp [spectral_magAll]

/-- C9: spectral analysis returns only strictly positive frequencies; for every
returned point power equals magnitude squared (the whole power list is the
elementwise square of the magnitude list); and the downsampling selects one
shared index set, so the three lists have equal lengths. -/
theorem C9_spectral_power_positive_freqs (arr : List ℚ) :
    (spectral_analysis arr).power =
      (spectral_analysis arr).magnitude.map (fun m => m ^ 2) ∧
    (∀ f ∈ (spectral_analysis arr).frequencies, 0 < f) ∧
    (spectral_analysis arr).frequencies.length =
      (spectral_analysis arr).magnitude.length ∧
    (spectral_analysis arr).magnitude.length =
      (spectral_analysis arr).power.length := by
  rw [spectral_analysis]
  by_cases hL : min (spectral_freqAll arr).length MAX_CHART_POINTS <
      (spectral_freqAll arr).length
  · have hL1 : 1 ≤ (spectral_freqAll arr).length := by omega
    simp only [if_pos hL]
    refine ⟨?_, ?_, ?_, ?_⟩
    · rw [spectral_powerAll,
        select_map (fun m => m ^ 2) (by norm_num : ((0 : ℝ)) ^ 2 = 0)]
    · intro f hf
      rw [select, List.mem_map] at hf
      obtain ⟨i, hi, rfl⟩ := hf
      have hlt : i < (spectral_freqAll arr).length := specSelIdx_mem_lt hL1 hi
      exact spectral_freqAll_pos arr _ (getD_mem hlt 0)
    · simp [select]
    · simp [select]
  · simp only [if_neg hL]
    refine ⟨rfl, spectral_freqAll_pos arr, ?_, ?_⟩
    · rw [spectral_freqAll_length, spectral_magAll_length]
    · simp [spectral_powerAll, spectral_magAll_length]

/-- Witness for C9 at arr = [1, 0, 0, 0]: the single positive frequency bin is
1/4 and it is positive. -/
theorem C9_spectral_power_positive_freqs_witness :
    (spectral_analysis [(1 : ℚ), 0, 0, 0]).frequencies = [1 / 4] ∧
    (0 : ℚ) < 1 / 4 ∧
    (spectral_analysis [(1 : ℚ), 0, 0, 0]).power =
      (spectral_analysis [(1 : ℚ), 0, 0, 0]).magnitude.map (fun m => m ^ 2) := by
  have h := C9_spectral_power_positive_freqs [(1 : ℚ), 0, 0, 0]
  have hfreq : spectral_freqAll [(1 : ℚ), 0, 0, 0] = [1 / 4] := by
    norm_num [spectral_freqAll, posFreqIdx, fftfreqQ, List.range_succ,
      List.filter]
  have he : (spectral_analysis [(1 : ℚ), 0, 0, 0]).frequencies = [1 / 4] := by
    rw [spectral_analysis]
    rw [if_neg (by rw [hfreq]; norm_num [MAX_CHART_POINTS])]
    exact hfreq
  exact ⟨he, h.2.1 _ (by rw [he]; exact List.mem_singleton.mpr rfl), h.1⟩

lemma validate_runs_none_iff : ∀ (runs : List (List PyVal)) (idx : ℕ),
    validate_runs runs idx = none ↔
      ∀ r ∈ runs, r ≠ [] ∧ r.all isNumericEntry = true := by
  intro runs
  induction runs with
  | nil => intro idx; simp [validate_runs]
  | cons r rest ih =>
    intro idx
    rw [validate_runs]
    by_cases hr : r.length = 0
    · rw [if_pos hr]
      constructor
      · intro h
        exact absurd h (by simp)
      · intro h
        rw [List.length_eq_zero] at hr
        exact absurd hr (h r (List.mem_cons_self _ _)).1
    · rw [if_neg hr]
      by_cases hall : r.all isNumericEntry = true
      · rw [if_pos hall, ih (idx + 1)]
        constructor
        · intro h x hx
          rcases List.mem_cons.mp hx with h1 | h2
          · rw [h1]
            exact ⟨fun hc => hr (by rw [hc]; rfl), hall⟩
          · exact h x h2
        · intro h x hx
          exact h x (List.mem_cons_of_mem _ hx)
      · rw [if_neg hall]
        constructor
        · intro h
          exact absurd h (by simp)
        · intro h
          exact absurd (h r (List.mem_cons_self _ _)).2 hall

lemma validate_runs_empty_at : ∀ (runs : List (List PyVal)) (idx i : ℕ)
    (r : List PyVal), runs[i]? = some r → r = [] →
    (∀ j, j < i → ∀ s, runs[j]? = some s →
      s ≠ [] ∧ s.all isNumericEntry = true) →
    validate_runs runs idx =
      some ("Run " ++ toString (idx + i + 1) ++ " is empty") := by
  intro runs
  induction runs with
  | nil => intro idx i r h; simp at h
  | cons r0 rest ih =>
    intro idx i r hget hr hprev
    cases i with
    | zero =>
      simp only [List.getElem?_cons_zero, Option.some.injEq] at hget
      rw [validate_runs, if_pos (by rw [hget, hr]; rfl)]
    | succ i' =>
      have h0 := hprev 0 (by omega) r0 (by simp)
      have hne : ¬r0.length = 0 := by
        rw [List.length_eq_zero]
        exact h0.1
      rw [validate_runs, if_neg hne, if_pos h0.2]
      have hrec := ih (idx + 1) i' r (by simpa using hget) hr
        (fun j hj s hs => hprev (j + 1) (by omega) s (by simpa using hs))
      have harith : idx + 1 + i' + 1 = idx + (i' + 1) + 1 := by omega
      rw [hrec, harith]

lemma validate_runs_nonnum_at : ∀ (runs : List (List PyVal)) (idx i : ℕ)
    (r : List PyVal), runs[i]? = some r → r ≠ [] →
    r.all isNumericEntry = false →
    (∀ j, j < i → ∀ s, runs[j]? = some s →
      s ≠ [] ∧ s.all isNumericEntry = true) →
    validate_runs runs idx =
      some ("Run " ++ toString (idx + i + 1) ++ " contains non-numeric values") := by
  intro runs
  induction runs with
  | nil => intro idx i r h; simp at h
  | cons r0 rest ih =>
    intro idx i r hget hr hall hprev
    cases i with
    | zero =>
      simp only [List.getElem?_cons_zero, Option.some.injEq] at hget
      subst hget
      rw [validate_runs,
        if_neg (by rw [List.length_eq_zero]; exact hr),
        if_neg (by rw [hall]; simp)]
    | succ i' =>
      have h0 := hprev 0 (by omega) r0 (by simp)
      have hne : ¬r0.length = 0 := by
        rw [List.length_eq_zero]
        exact h0.1
      rw [validate_runs, if_neg hne, if_pos h0.2]
      have hrec := ih (idx + 1) i' r (by simpa using hget) hr hall
        (fun j hj s hs => hprev (j + 1) (by omega) s (by simpa using hs))
      have harith : idx + 1 + i' + 1 = idx + (i' + 1) + 1 := by omega
      rw [hrec, harith]

lemma analyze_ok_iff (runs : List (List PyVal)) (res : MultiRunSkeleton) :
    analyze_multi_run_validate runs = Except.ok res ↔
      (runs ≠ [] ∧ (∀ r ∈ runs, r ≠ [] ∧ r.all isNumericEntry = true) ∧
       (∃ r ∈ runs, run_has_nan_inf r = false) ∧
       res = { count_per_run := (runs.headD []).length,
               valid_runs := runs.filter (fun r => !run_has_nan_inf r) }) := by
  rw [analyze_multi_run_validate]
  by_cases h0 : runs.length = 0
  · rw [if_pos h0]
    rw [List.length_eq_zero] at h0
    constructor
    · intro h
      exact absurd h (by simp)
    · intro h
      exact absurd h0 h.1
  · rw [if_neg h0]
    rcases hv : validate_runs runs 0 with _ | msg
    · simp only []
      have hclean := (validate_runs_none_iff runs 0).mp hv
      by_cases hf : (runs.filter (fun r => !run_has_nan_inf r)).length = 0
      · rw [if_pos hf]
        constructor
        · intro h
          exact absurd h (by simp)
        · rintro ⟨-, -, ⟨r, hr, hnan⟩, -⟩
          rw [List.length_eq_zero, List.filter_eq_nil_iff] at hf
          have := hf r hr
          rw [hnan] at this
          simp at this
      · rw [if_neg hf]
        constructor
        · intro h
          have hres := Except.ok.inj h
          refine ⟨?_, hclean, ?_, hres.symm⟩
          · intro hc
            rw [hc] at h0
            exact h0 rfl
          · have hpos : 0 < (runs.filter (fun r => !run_has_nan_inf r)).length :=
              Nat.pos_of_ne_zero hf
            obtain ⟨x, hx⟩ := List.exists_mem_of_length_pos hpos
            rw [List.mem_filter] at hx
            exact ⟨x, hx.1, by simpa using hx.2⟩
        · rintro ⟨-, -, -, hres⟩
          rw [hres]
    · simp only []
      constructor
      · intro h
        exact absurd h (by simp)
      · rintro ⟨-, hcl, -, -⟩
        have := (validate_runs_none_iff runs 0).mpr hcl
        rw [hv] at this
        exact absurd this (by simp)

/-- C5: analyze_multi_run raises exactly the four descriptive validation
errors: "No runs provided" on an empty batch, "Run i is empty" and "Run i
contains non-numeric values" at the first (1-based) offending run, and
"No valid runs to analyze" when every run is dropped by the NaN/Inf filter;
any other validated input yields the success value. -/
theorem C5_analyze_multi_run_validation :
    (analyze_multi_run_validate [] = Except.error "No runs provided") ∧
    (∀ (runs : List (List PyVal)) (i : ℕ) (r : List PyVal),
      runs[i]? = some r → r = [] →
      (∀ j, j < i → ∀ s, runs[j]? = some s →
        s ≠ [] ∧ s.all isNumericEntry = true) →
      analyze_multi_run_validate runs =
        Except.error ("Run " ++ toString (i + 1) ++ " is empty")) ∧
    (∀ (runs : List (List PyVal)) (i : ℕ) (r : List PyVal),
      runs[i]? = some r → r ≠ [] → r.all isNumericEntry = false →
      (∀ j, j < i → ∀ s, runs[j]? = some s →
        s ≠ [] ∧ s.all isNumericEntry = true) →
      analyze_multi_run_validate runs =
        Except.error ("Run " ++ toString (i + 1) ++ " contains non-numeric values")) ∧
    (∀ runs : List (List PyVal), runs ≠ [] →
      (∀ r ∈ runs, r ≠ [] ∧ r.all isNumericEntry = true) →
      (∀ r ∈ runs, run_has_nan_inf r = true) →
      analyze_multi_run_validate runs = Except.error "No valid runs to analyze") ∧
    (∀ (runs : List (List PyVal)) (res : MultiRunSkeleton),
      analyze_multi_run_validate runs = Except.ok res ↔
        (runs ≠ [] ∧ (∀ r ∈ runs, r ≠ [] ∧ r.all isNumericEntry = true) ∧
         (∃ r ∈ runs, run_has_nan_inf r = false) ∧
         res = { count_per_run := (runs.headD []).length,
                 valid_runs := runs.filter (fun r => !run_has_nan_inf r) })) := by
  refine ⟨rfl, ?_, ?_, ?_, analyze_ok_iff⟩
  · intro runs i r hget hr hprev
    have hne : runs.length ≠ 0 := by
      intro hcon
      rw [List.length_eq_zero] at hcon
      rw [hcon] at hget
      simp at hget
    rw [analyze_multi_run_validate, if_neg hne,
      validate_runs_empty_at runs 0 i r hget hr hprev]
    simp only [Nat.zero_add]
  · intro runs i r hget hr hall hprev
    have hne : runs.length ≠ 0 := by
      intro hcon
      rw [List.length_eq_zero] at hcon
      rw [hcon] at hget
      simp at hget
    rw [analyze_multi_run_validate, if_neg hne,
      validate_runs_nonnum_at runs 0 i r hget hr hall hprev]
    simp only [Nat.zero_add]
  · intro runs hne hclean hnan
    have h0 : runs.length ≠ 0 := by
      intro hcon
      rw [List.length_eq_zero] at hcon
      exact hne hcon
    have hv : validate_runs runs 0 = none :=
      (validate_runs_none_iff runs 0).mpr hclean
    have hf : (runs.filter (fun r => !run_has_nan_inf r)).length = 0 := by
      rw [List.length_eq_zero, List.filter_eq_nil_iff]
      intro a ha
      rw [hnan a ha]
      simp
    rw [analyze_multi_run_validate, if_neg h0, hv]
    simp only []
    rw [if_pos hf]

/-- Witness for C5: one concrete input per validation branch. -/
theorem C5_analyze_multi_run_validation_witness :
    analyze_multi_run_validate [] = Except.error "No runs provided" ∧
    analyze_multi_run_validate [[PyVal.num 1], []] =
      Except.error "Run 2 is empty" ∧
    analyze_multi_run_validate [[PyVal.other]] =
      Except.error "Run 1 contains non-numeric values" ∧
    analyze_multi_run_validate [[PyVal.nanVal]] =
      Except.error "No valid runs to analyze" ∧
    analyze_multi_run_validate [[PyVal.num 1]] =
      Except.ok { count_per_run := 1, valid_runs := [[PyVal.num 1]] } := by
  have h := C5_analyze_multi_run_validation
  refine ⟨h.1, ?_, ?_, ?_, ?_⟩
  · have he := h.2.1 [[PyVal.num 1], []] 1 [] rfl rfl ?_
    · rw [he]
      rfl
    · intro j hj s hs
      have hj0 : j = 0 := by omega
      subst hj0
      simp only [List.getElem?_cons_zero, Option.some.injEq] at hs
      rw [← hs]
      exact ⟨by simp, rfl⟩
  · have he := h.2.2.1 [[PyVal.other]] 0 [PyVal.other] rfl (by simp) rfl ?_
    · rw [he]
      rfl
    · intro j hj s hs
      exact absurd hj (by omega)
  · refine h.2.2.2.1 [[PyVal.nanVal]] (by simp) ?_ ?_
    · intro r hr
      simp only [List.mem_singleton] at hr
      rw [hr]
      exact ⟨by simp, rfl⟩
    · intro r hr
      simp only [List.mem_singleton] at hr
      rw [hr]
      rfl
  · refine (h.2.2.2.2 _ _).mpr ⟨by simp, ?_, ⟨[PyVal.num 1], by simp, rfl⟩, rfl⟩
    intro r hr
    simp only [List.mem_singleton] at hr
    rw [hr]
    exact ⟨by simp, rfl⟩

/-- C10: in every successful analyze_multi_run result the count_per_run field
is the length of the FIRST submitted run, and no other run influences it:
any other validated batch with the same first run yields the same
count_per_run. -/
theorem C10_count_per_run_first_run (runs : List (List PyVal))
    (res : MultiRunSkeleton)
    (hok : analyze_multi_run_validate runs = Except.ok res) :
    res.count_per_run = (runs.headD []).length ∧
    (∀ (runs2 : List (List PyVal)) (res2 : MultiRunSkeleton),
      analyze_multi_run_validate runs2 = Except.ok res2 →
      runs2.head? = runs.head? → res2.count_per_run = res.count_per_run) := by
  have h := (analyze_ok_iff runs res).mp hok
  constructor
  · rw [h.2.2.2]
  · intro runs2 res2 hok2 hhead
    have h2 := (analyze_ok_iff runs2 res2).mp hok2
    rw [h.2.2.2, h2.2.2.2]
    have hsame : runs2.headD [] = runs.headD [] := by
      cases runs2 with
      | nil => cases runs with
        | nil => rfl
        | cons a t => simp at hhead
      | cons a2 t2 => cases runs with
        | nil => simp at hhead
        | cons a t =>
          simp only [List.head?_cons, Option.some.injEq] at hhead
          simp [hhead]
    show (runs2.headD []).length = (runs.headD []).length
    rw [hsame]

/-- Witness for C10: two runs of different lengths (3 and 2); count_per_run is
3, the first run's length, not the second's. -/
theorem C10_count_per_run_first_run_witness :
    analyze_multi_run_validate witnessRunsC10 = Except.ok witnessResC10 ∧
    witnessResC10.count_per_run = (witnessRunsC10.headD []).length ∧
    witnessResC10.count_per_run = 3 ∧
    ([PyVal.num 4, PyVal.num 5] : List PyVal).length = 2 ∧ (3 : ℕ) ≠ 2 := by
  have hok : analyze_multi_run_validate witnessRunsC10 =
      Except.ok witnessResC10 := rfl
  exact ⟨hok, (C10_count_per_run_first_run _ _ hok).1, rfl, rfl, by norm_num⟩

end Stats
